import Mathlib

/-!
# Verification of an AVL tree implementation

Shallow embedding of `src/avl_tree.cc`: a self-balancing binary search
tree over integer keys with insert, remove and search.  The C++ `Node`
(fields `data`, `left`, `right`, `height`, with `nullptr` for an absent
subtree) becomes the inductive type `Node`; each C++ function becomes a
Lean function on `Node`, with in-place pointer mutation turned into
returning the rebuilt subtree, exactly as the C++ code itself returns
the new subtree root from every helper.
-/

namespace AVL

/-- The node structure of `src/avl_tree.cc` (`struct Node`): `data`,
`left`, `right` and the cached `height`; `nil` stands for `nullptr`. -/
inductive Node where
  | nil : Node
  | node (data : Int) (left : Node) (right : Node) (height : Int) : Node
deriving DecidableEq, Repr

namespace Node

/-- `height(Node *N)`: 0 for `nullptr`, otherwise the cached field. -/
def height : Node → Int
  | nil => 0
  | node _ _ _ h => h

/-- `N->data`; the C++ code only ever dereferences a non-null pointer,
so the value returned on `nil` (0) is never relevant. -/
def dataOf : Node → Int
  | nil => 0
  | node d _ _ _ => d

/-- `N->left` (never dereferenced on `nil` by the source). -/
def leftOf : Node → Node
  | nil => nil
  | node _ l _ _ => l

/-- `N->right` (never dereferenced on `nil` by the source). -/
def rightOf : Node → Node
  | nil => nil
  | node _ _ r _ => r

/-- `node->left = l` (pointer assignment into the parent's child slot). -/
def setLeft : Node → Node → Node
  | nil, _ => nil
  | node d _ r h, l => node d l r h

/-- `node->right = r`. -/
def setRight : Node → Node → Node
  | nil, _ => nil
  | node d l _ h, r => node d l r h

/-- `updateHeight(N)`: recompute the cached height as
`1 + max(height(N->left), height(N->right))`. -/
def updateHeight : Node → Node
  | nil => nil
  | node d l r _ => node d l r (1 + max (height l) (height r))

/-- `getBalance(N)`: `height(N->left) - height(N->right)`, 0 for `nullptr`. -/
def getBalance : Node → Int
  | nil => 0
  | node _ l r _ => height l - height r

/-- `rightRotate(y)`: `x = y->left; T2 = x->right; x->right = y;
y->left = T2; updateHeight(y); updateHeight(x); return x`.  The C++
function is only ever called with `y` and `y->left` non-null; on any
other input (where the C++ would dereference null) we return the
argument unchanged. -/
def rightRotate : Node → Node
  | node dy (node dx t1 t2 _) t3 _ =>
      node dx t1 (node dy t2 t3 (1 + max (height t2) (height t3)))
        (1 + max (height t1) (1 + max (height t2) (height t3)))
  | t => t

/-- `leftRotate(x)`: `y = x->right; T2 = y->left; y->left = x;
x->right = T2; updateHeight(x); updateHeight(y); return y`; same
convention as `rightRotate` for inputs the C++ never passes. -/
def leftRotate : Node → Node
  | node dx t1 (node dy t2 t3 _) _ =>
      node dy (node dx t1 t2 (1 + max (height t1) (height t2))) t3
        (1 + max (1 + max (height t1) (height t2)) (height t3))
  | t => t

/-- Lines 96–116 of `insertNode`: after the recursive call has been
reattached, recompute the height, compute the balance factor, and apply
one of the four rebalancing cases selected by comparing `key` with the
child's key. -/
def rebalanceInsert (n : Node) (key : Int) : Node :=
  let m := updateHeight n
  let balance := getBalance m
  if balance > 1 ∧ key < dataOf (leftOf m) then rightRotate m
  else if balance < -1 ∧ key > dataOf (rightOf m) then leftRotate m
  else if balance > 1 ∧ key > dataOf (leftOf m) then
    rightRotate (setLeft m (leftRotate (leftOf m)))
  else if balance < -1 ∧ key < dataOf (rightOf m) then
    leftRotate (setRight m (rightRotate (rightOf m)))
  else m

/-- `insertNode(node, key)`: create a fresh node (height 1) at a null
leaf, recurse left/right on strict comparison, return unchanged on an
equal key, then rebalance on the way back up. -/
def insertNode : Node → Int → Node
  | nil, key => node key nil nil 1
  | node d l r h, key =>
    if key < d then rebalanceInsert (node d (insertNode l key) r h) key
    else if d < key then rebalanceInsert (node d l (insertNode r key) h) key
    else node d l r h

/-- `minValueNode(node)`: follow `left` pointers until none remain. -/
def minValueNode : Node → Node
  | nil => nil
  | node d nil r h => node d nil r h
  | node _ l@(node _ _ _ _) _ _ => minValueNode l

/-- Lines 158–181 of `deleteNode`: recompute the height, compute the
balance factor, and rebalance using the child's balance factor (the
`root == nullptr` early return corresponds to the `nil` case). -/
def rebalanceDelete (n : Node) : Node :=
  match n with
  | nil => nil
  | node d l r h =>
    let m := updateHeight (node d l r h)
    let balance := getBalance m
    if balance > 1 ∧ getBalance (leftOf m) ≥ 0 then rightRotate m
    else if balance > 1 ∧ getBalance (leftOf m) < 0 then
      rightRotate (setLeft m (leftRotate (leftOf m)))
    else if balance < -1 ∧ getBalance (rightOf m) ≤ 0 then leftRotate m
    else if balance < -1 ∧ getBalance (rightOf m) > 0 then
      leftRotate (setRight m (rightRotate (rightOf m)))
    else m

/-- `deleteNode(root, key)`.  A leaf is removed outright; a node with
one child is overwritten by `*root = *temp`, i.e. it becomes an exact
copy of its only child; a node with two children takes the key of the
in-order successor (`minValueNode(root->right)`) and deletes that key
from the right subtree.  Every non-null return passes through the
height update and rebalancing of lines 158–181. -/
def deleteNode : Node → Int → Node
  | nil, _ => nil
  | node d l r h, key =>
    if key < d then rebalanceDelete (node d (deleteNode l key) r h)
    else if d < key then rebalanceDelete (node d l (deleteNode r key) h)
    else
      match l, r with
      | nil, nil => nil
      | nil, c@(node _ _ _ _) => rebalanceDelete c
      | c@(node _ _ _ _), nil => rebalanceDelete c
      | node dl ll lr hl, node dr rl rr hr =>
        let m := minValueNode (node dr rl rr hr)
        rebalanceDelete
          (node (dataOf m) (node dl ll lr hl)
            (deleteNode (node dr rl rr hr) (dataOf m)) h)

/-- `searchNodeUtil(node, key)`: return the node holding `key`, or null. -/
def searchNodeUtil : Node → Int → Node
  | nil, _ => nil
  | node d l r h, key =>
    if d = key then node d l r h
    else if key < d then searchNodeUtil l key
    else searchNodeUtil r key

end Node

open Node

/-- `AVLTree::search(key)`: `searchNodeUtil(root, key) != nullptr`. -/
def search (root : Node) (key : Int) : Bool :=
  decide (searchNodeUtil root key ≠ nil)

/-- A public operation of the `AVLTree` class (`insert` or `remove`). -/
inductive Op where
  | ins (k : Int) : Op
  | del (k : Int) : Op
deriving DecidableEq, Repr

/-- One public operation applied to the tree's root:
`AVLTree::insert` is `root = insertNode(root, key)` and
`AVLTree::remove` is `root = deleteNode(root, key)`. -/
def applyOp (t : Node) : Op → Node
  | Op.ins k => insertNode t k
  | Op.del k => deleteNode t k

/-- The root after running a sequence of public operations on a freshly
constructed tree (`AVLTree() : root(nullptr)`). -/
def applyOps (ops : List Op) : Node :=
  ops.foldl applyOp nil

/-- The reference model: the same operation on a plain finite set. -/
def applyOpSet (s : Finset Int) : Op → Finset Int
  | Op.ins k => insert k s
  | Op.del k => s.erase k

/-- The reference set after a sequence of operations on the empty set. -/
def applyOpsSet (ops : List Op) : Finset Int :=
  ops.foldl applyOpSet ∅

/-- The set of keys stored in a tree. -/
def keys : Node → Finset Int
  | nil => ∅
  | node d l r _ => insert d (keys l ∪ keys r)

/-- In-order traversal of the keys. -/
def inorder : Node → List Int
  | nil => []
  | node d l r _ => inorder l ++ d :: inorder r

/-- The binary-search-tree property: at every node all keys of the left
subtree are smaller and all keys of the right subtree are larger. -/
def BST : Node → Prop
  | nil => True
  | node d l r _ => (∀ x ∈ keys l, x < d) ∧ (∀ x ∈ keys r, d < x) ∧ BST l ∧ BST r

/-- Height-field correctness: every cached `height` equals
`1 + max` of the children's heights (an absent subtree having height 0). -/
def HeightInv : Node → Prop
  | nil => True
  | node _ l r h => h = 1 + max (height l) (height r) ∧ HeightInv l ∧ HeightInv r

/-- The AVL balance property: every node's balance factor lies in
`{-1, 0, 1}`. -/
def Balanced : Node → Prop
  | nil => True
  | node _ l r _ =>
      -1 ≤ height l - height r ∧ height l - height r ≤ 1 ∧ Balanced l ∧ Balanced r

instance decBST : (t : Node) → Decidable (BST t)
  | nil => isTrue trivial
  | node d l r h => by
    have hl := decBST l
    have hr := decBST r
    rw [show BST (node d l r h) =
      ((∀ x ∈ keys l, x < d) ∧ (∀ x ∈ keys r, d < x) ∧ BST l ∧ BST r) from rfl]
    infer_instance

instance decHeightInv : (t : Node) → Decidable (HeightInv t)
  | nil => isTrue trivial
  | node d l r h => by
    have hl := decHeightInv l
    have hr := decHeightInv r
    rw [show HeightInv (node d l r h) =
      (h = 1 + max (height l) (height r) ∧ HeightInv l ∧ HeightInv r) from rfl]
    infer_instance

instance decBalanced : (t : Node) → Decidable (Balanced t)
  | nil => isTrue trivial
  | node d l r h => by
    have hl := decBalanced l
    have hr := decBalanced r
    rw [show Balanced (node d l r h) =
      (-1 ≤ height l - height r ∧ height l - height r ≤ 1 ∧
        Balanced l ∧ Balanced r) from rfl]
    infer_instance

/-! ### Basic unfolding lemmas -/

open Node

@[simp] theorem height_nil : height nil = 0 := rfl

@[simp] theorem height_node (d : Int) (l r : Node) (h : Int) :
    height (node d l r h) = h := rfl

@[simp] theorem dataOf_node (d : Int) (l r : Node) (h : Int) :
    dataOf (node d l r h) = d := rfl

@[simp] theorem leftOf_node (d : Int) (l r : Node) (h : Int) :
    leftOf (node d l r h) = l := rfl

@[simp] theorem rightOf_node (d : Int) (l r : Node) (h : Int) :
    rightOf (node d l r h) = r := rfl

@[simp] theorem getBalance_nil : getBalance nil = 0 := rfl

@[simp] theorem getBalance_node (d : Int) (l r : Node) (h : Int) :
    getBalance (node d l r h) = height l - height r := rfl

@[simp] theorem updateHeight_node (d : Int) (l r : Node) (h : Int) :
    updateHeight (node d l r h) = node d l r (1 + max (height l) (height r)) := rfl

@[simp] theorem setLeft_node (d : Int) (l r : Node) (h : Int) (x : Node) :
    setLeft (node d l r h) x = node d x r h := rfl

@[simp] theorem setRight_node (d : Int) (l r : Node) (h : Int) (x : Node) :
    setRight (node d l r h) x = node d l x h := rfl

@[simp] theorem keys_nil : keys nil = ∅ := rfl

@[simp] theorem keys_node (d : Int) (l r : Node) (h : Int) :
    keys (node d l r h) = insert d (keys l ∪ keys r) := rfl

@[simp] theorem inorder_nil : inorder nil = [] := rfl

@[simp] theorem inorder_node (d : Int) (l r : Node) (h : Int) :
    inorder (node d l r h) = inorder l ++ d :: inorder r := rfl

@[simp] theorem BST_nil : BST nil := trivial

@[simp] theorem BST_node_iff (d : Int) (l r : Node) (h : Int) :
    BST (node d l r h) ↔
      (∀ x ∈ keys l, x < d) ∧ (∀ x ∈ keys r, d < x) ∧ BST l ∧ BST r := Iff.rfl

@[simp] theorem HeightInv_nil : HeightInv nil := trivial

@[simp] theorem HeightInv_node_iff (d : Int) (l r : Node) (h : Int) :
    HeightInv (node d l r h) ↔
      h = 1 + max (height l) (height r) ∧ HeightInv l ∧ HeightInv r := Iff.rfl

@[simp] theorem Balanced_nil : Balanced nil := trivial

@[simp] theorem Balanced_node_iff (d : Int) (l r : Node) (h : Int) :
    Balanced (node d l r h) ↔
      -1 ≤ height l - height r ∧ height l - height r ≤ 1 ∧
        Balanced l ∧ Balanced r := Iff.rfl

theorem height_nonneg {t : Node} (hH : HeightInv t) : 0 ≤ height t := by
  induction t with
  | nil => simp
  | node d l r h ihl ihr =>
    obtain ⟨hh, hl, hr⟩ := hH
    have := ihl hl
    have := ihr hr
    simp only [height_node]
    omega

theorem height_pos {t : Node} (hH : HeightInv t) (hne : t ≠ nil) :
    1 ≤ height t := by
  cases t with
  | nil => exact absurd rfl hne
  | node d l r h =>
    obtain ⟨hh, hl, hr⟩ := hH
    have := height_nonneg hl
    have := height_nonneg hr
    simp only [height_node]
    omega

theorem ne_nil_of_height_pos {t : Node} (hpos : 0 < height t) : t ≠ nil := by
  intro h
  subst h
  simp at hpos

/-! ### Rotations preserve keys, in-order traversal and the BST property -/

theorem keys_rightRotate (t : Node) : keys (rightRotate t) = keys t := by
  match t with
  | nil => rfl
  | node dy nil t3 hy => rfl
  | node dy (node dx t1 t2 hx) t3 hy =>
    simp only [rightRotate, keys_node]
    ext x
    simp only [Finset.mem_insert, Finset.mem_union]
    tauto

theorem keys_leftRotate (t : Node) : keys (leftRotate t) = keys t := by
  match t with
  | nil => rfl
  | node dx t1 nil hx => rfl
  | node dx t1 (node dy t2 t3 hy) hx =>
    simp only [leftRotate, keys_node]
    ext x
    simp only [Finset.mem_insert, Finset.mem_union]
    tauto

theorem inorder_rightRotate (t : Node) : inorder (rightRotate t) = inorder t := by
  match t with
  | nil => rfl
  | node dy nil t3 hy => rfl
  | node dy (node dx t1 t2 hx) t3 hy =>
    simp [rightRotate]

theorem inorder_leftRotate (t : Node) : inorder (leftRotate t) = inorder t := by
  match t with
  | nil => rfl
  | node dx t1 nil hx => rfl
  | node dx t1 (node dy t2 t3 hy) hx =>
    simp [leftRotate]

theorem BST_rightRotate {t : Node} (hB : BST t) : BST (rightRotate t) := by
  match t with
  | nil => exact hB
  | node dy nil t3 hy => exact hB
  | node dy (node dx t1 t2 hx) t3 hy =>
    obtain ⟨hlb, hrb, ⟨h1, h2, b1, b2⟩, b3⟩ := hB
    have hxy : dx < dy := hlb dx (by simp)
    refine ⟨h1, ?_, b1, ?_, ?_, b2, b3⟩
    · intro x hx
      simp only [keys_node, Finset.mem_insert, Finset.mem_union] at hx
      rcases hx with rfl | hx | hx
      · exact hxy
      · exact h2 x hx
      · exact lt_trans hxy (hrb x hx)
    · intro x hx
      exact hlb x (by simp [hx])
    · exact hrb

theorem BST_leftRotate {t : Node} (hB : BST t) : BST (leftRotate t) := by
  match t with
  | nil => exact hB
  | node dx t1 nil hx => exact hB
  | node dx t1 (node dy t2 t3 hy) hx =>
    obtain ⟨hlb, hrb, b1, ⟨h2, h3, b2, b3⟩⟩ := hB
    have hxy : dx < dy := hrb dy (by simp)
    refine ⟨?_, h3, ⟨hlb, ?_, b1, b2⟩, b3⟩
    · intro x hx
      simp only [keys_node, Finset.mem_insert, Finset.mem_union] at hx
      rcases hx with rfl | hx | hx
      · exact hxy
      · exact lt_trans (hlb x hx) hxy
      · exact h2 x hx
    · intro x hx
      exact hrb x (by simp [hx])

theorem HeightInv_rightRotate {t1 t2 t3 : Node} (h1 : HeightInv t1)
    (h2 : HeightInv t2) (h3 : HeightInv t3) (dy dx : Int) (hx hy : Int) :
    HeightInv (rightRotate (node dy (node dx t1 t2 hx) t3 hy)) :=
  ⟨rfl, h1, rfl, h2, h3⟩

theorem HeightInv_leftRotate {t1 t2 t3 : Node} (h1 : HeightInv t1)
    (h2 : HeightInv t2) (h3 : HeightInv t3) (dx dy : Int) (hx hy : Int) :
    HeightInv (leftRotate (node dx t1 (node dy t2 t3 hy) hx)) :=
  ⟨rfl, ⟨rfl, h1, h2⟩, h3⟩

/-! ### The rebalancing steps do nothing on an already valid subtree -/

theorem updateHeight_eq_self {t : Node} (hH : HeightInv t) : updateHeight t = t := by
  cases t with
  | nil => rfl
  | node d l r h => simp only [updateHeight_node, hH.1]

theorem rebalanceInsert_eq_self {t : Node} (k : Int) (hH : HeightInv t)
    (hB : Balanced t) : rebalanceInsert t k = t := by
  cases t with
  | nil => rfl
  | node d l r h =>
    obtain ⟨hb1, hb2, _, _⟩ := hB
    rw [rebalanceInsert, updateHeight_eq_self hH]
    simp only [getBalance_node]
    have c1 : ¬(height l - height r > 1 ∧ k < dataOf (leftOf (node d l r h))) := by
      rintro ⟨c, -⟩; omega
    have c2 : ¬(height l - height r < -1 ∧ k > dataOf (rightOf (node d l r h))) := by
      rintro ⟨c, -⟩; omega
    have c3 : ¬(height l - height r > 1 ∧ k > dataOf (leftOf (node d l r h))) := by
      rintro ⟨c, -⟩; omega
    have c4 : ¬(height l - height r < -1 ∧ k < dataOf (rightOf (node d l r h))) := by
      rintro ⟨c, -⟩; omega
    rw [if_neg c1, if_neg c2, if_neg c3, if_neg c4]

theorem rebalanceDelete_eq_self {t : Node} (hH : HeightInv t)
    (hB : Balanced t) : rebalanceDelete t = t := by
  cases t with
  | nil => rfl
  | node d l r h =>
    obtain ⟨hb1, hb2, _, _⟩ := hB
    rw [rebalanceDelete, updateHeight_eq_self hH]
    simp only [getBalance_node]
    have c1 : ¬(height l - height r > 1 ∧
        getBalance (leftOf (node d l r h)) ≥ 0) := by rintro ⟨c, -⟩; omega
    have c2 : ¬(height l - height r > 1 ∧
        getBalance (leftOf (node d l r h)) < 0) := by rintro ⟨c, -⟩; omega
    have c3 : ¬(height l - height r < -1 ∧
        getBalance (rightOf (node d l r h)) ≤ 0) := by rintro ⟨c, -⟩; omega
    have c4 : ¬(height l - height r < -1 ∧
        getBalance (rightOf (node d l r h)) > 0) := by rintro ⟨c, -⟩; omega
    rw [if_neg c1, if_neg c2, if_neg c3, if_neg c4]

theorem rebalanceInsert_no_rotation (d : Int) (l r : Node) (h k : Int)
    (h1 : -1 ≤ height l - height r) (h2 : height l - height r ≤ 1) :
    rebalanceInsert (node d l r h) k =
      node d l r (1 + max (height l) (height r)) := by
  rw [rebalanceInsert]
  simp only [updateHeight_node, getBalance_node]
  rw [if_neg (by rintro ⟨c, -⟩; omega), if_neg (by rintro ⟨c, -⟩; omega),
    if_neg (by rintro ⟨c, -⟩; omega), if_neg (by rintro ⟨c, -⟩; omega)]

theorem rebalanceDelete_no_rotation (d : Int) (l r : Node) (h : Int)
    (h1 : -1 ≤ height l - height r) (h2 : height l - height r ≤ 1) :
    rebalanceDelete (node d l r h) =
      node d l r (1 + max (height l) (height r)) := by
  rw [rebalanceDelete]
  simp only [updateHeight_node, getBalance_node]
  rw [if_neg (by rintro ⟨c, -⟩; omega), if_neg (by rintro ⟨c, -⟩; omega),
    if_neg (by rintro ⟨c, -⟩; omega), if_neg (by rintro ⟨c, -⟩; omega)]

/-! ### Height and balance behaviour of the four rebalancing shapes

Each lemma describes one of the rotation shapes used by `insertNode`
and `deleteNode` on a node whose (recomputed) balance factor is `±2`,
assuming correct cached heights and balance in the subtrees. -/

theorem rightRotate_avl {a b c : Node} (d dl hl' hm : Int)
    (iHa : HeightInv a) (iHb : HeightInv b) (iHc : HeightInv c)
    (iBa : Balanced a) (iBb : Balanced b) (iBc : Balanced c)
    (hab1 : -1 ≤ height a - height b) (hab2 : height a - height b ≤ 1)
    (hge : 0 ≤ height a - height b)
    (hmax : max (height a) (height b) = height c + 1) :
    HeightInv (rightRotate (node d (node dl a b hl') c hm)) ∧
    Balanced (rightRotate (node d (node dl a b hl') c hm)) ∧
    (height (rightRotate (node d (node dl a b hl') c hm)) = height c + 2 ∨
      (height (rightRotate (node d (node dl a b hl') c hm)) = height c + 3 ∧
        height a = height b)) := by
  refine ⟨⟨rfl, iHa, rfl, iHb, iHc⟩, ⟨?_, ?_, iBa, ?_, ?_, iBb, iBc⟩, ?_⟩ <;>
    (try simp only [rightRotate, height_node]) <;> omega

theorem leftRotate_avl {a b c : Node} (d dr hr' hm : Int)
    (iHa : HeightInv a) (iHb : HeightInv b) (iHc : HeightInv c)
    (iBa : Balanced a) (iBb : Balanced b) (iBc : Balanced c)
    (hbc1 : -1 ≤ height b - height c) (hbc2 : height b - height c ≤ 1)
    (hle : height b - height c ≤ 0)
    (hmax : max (height b) (height c) = height a + 1) :
    HeightInv (leftRotate (node d a (node dr b c hr') hm)) ∧
    Balanced (leftRotate (node d a (node dr b c hr') hm)) ∧
    (height (leftRotate (node d a (node dr b c hr') hm)) = height a + 2 ∨
      (height (leftRotate (node d a (node dr b c hr') hm)) = height a + 3 ∧
        height b = height c)) := by
  refine ⟨⟨rfl, ⟨rfl, iHa, iHb⟩, iHc⟩, ⟨?_, ?_, ⟨?_, ?_, iBa, iBb⟩, iBc⟩, ?_⟩ <;>
    (try simp only [leftRotate, height_node]) <;> omega

theorem leftRightRotate_avl {a b1 b2 c : Node} (d dl db hb' hl' hm : Int)
    (iHa : HeightInv a) (iHb1 : HeightInv b1) (iHb2 : HeightInv b2)
    (iHc : HeightInv c)
    (iBa : Balanced a) (iBb1 : Balanced b1) (iBb2 : Balanced b2)
    (iBc : Balanced c)
    (hb12a : -1 ≤ height b1 - height b2) (hb12b : height b1 - height b2 ≤ 1)
    (hac : height a = height c)
    (hmax : max (height b1) (height b2) = height c) :
    HeightInv (rightRotate (node d
      (leftRotate (node dl a (node db b1 b2 hb') hl')) c hm)) ∧
    Balanced (rightRotate (node d
      (leftRotate (node dl a (node db b1 b2 hb') hl')) c hm)) ∧
    height (rightRotate (node d
      (leftRotate (node dl a (node db b1 b2 hb') hl')) c hm)) = height c + 2 := by
  refine ⟨⟨rfl, ⟨rfl, iHa, iHb1⟩, rfl, iHb2, iHc⟩,
    ⟨?_, ?_, ⟨?_, ?_, iBa, iBb1⟩, ?_, ?_, iBb2, iBc⟩, ?_⟩ <;>
    (try simp only [leftRotate, rightRotate, height_node]) <;> omega

theorem rightLeftRotate_avl {a b1 b2 c : Node} (d dr db hb' hr' hm : Int)
    (iHa : HeightInv a) (iHb1 : HeightInv b1) (iHb2 : HeightInv b2)
    (iHc : HeightInv c)
    (iBa : Balanced a) (iBb1 : Balanced b1) (iBb2 : Balanced b2)
    (iBc : Balanced c)
    (hb12a : -1 ≤ height b1 - height b2) (hb12b : height b1 - height b2 ≤ 1)
    (hac : height a = height c)
    (hmax : max (height b1) (height b2) = height a) :
    HeightInv (leftRotate (node d a
      (rightRotate (node dr (node db b1 b2 hb') c hr')) hm)) ∧
    Balanced (leftRotate (node d a
      (rightRotate (node dr (node db b1 b2 hb') c hr')) hm)) ∧
    height (leftRotate (node d a
      (rightRotate (node dr (node db b1 b2 hb') c hr')) hm)) = height a + 2 := by
  refine ⟨⟨rfl, ⟨rfl, iHa, iHb1⟩, rfl, iHb2, iHc⟩,
    ⟨?_, ?_, ⟨?_, ?_, iBa, iBb1⟩, ?_, ?_, iBb2, iBc⟩, ?_⟩ <;>
    (try simp only [leftRotate, rightRotate, height_node]) <;> omega

/-! ### The full rebalancing step of `insertNode` at a node whose
balance factor became `±2` -/

theorem insertRebalance_left_rot (d : Int) {l' r : Node} (h k : Int)
    (iH : HeightInv l') (iB : Balanced l') (hHr : HeightInv r) (hBr : Balanced r)
    (iBst : BST l') (hBstr : BST r)
    (hbl : ∀ x ∈ keys l', x < d) (hbr : ∀ x ∈ keys r, d < x)
    (hbf2 : height l' = height r + 2)
    (hgb : getBalance l' = if k < dataOf l' then 1 else -1)
    (hkne : k ≠ dataOf l') :
    HeightInv (rebalanceInsert (node d l' r h) k) ∧
    Balanced (rebalanceInsert (node d l' r h) k) ∧
    BST (rebalanceInsert (node d l' r h) k) ∧
    keys (rebalanceInsert (node d l' r h) k) = insert d (keys l' ∪ keys r) ∧
    height (rebalanceInsert (node d l' r h) k) = height r + 2 := by
  have h0r := height_nonneg hHr
  cases l' with
  | nil => simp at hbf2; omega
  | node dl a b hlh =>
    obtain ⟨hlh_eq, iHa, iHb⟩ := iH
    obtain ⟨ibal1, ibal2, iBa, iBb⟩ := iB
    simp only [getBalance_node, dataOf_node, height_node] at hgb hkne hbf2
    have h0a := height_nonneg iHa
    have h0b := height_nonneg iHb
    rcases lt_trichotomy k dl with hlt | heq | hgt
    · -- the key went into the left child's left subtree: single right rotation
      rw [if_pos hlt] at hgb
      simp only [rebalanceInsert, updateHeight_node, getBalance_node,
        leftOf_node, rightOf_node, dataOf_node, height_node]
      rw [if_pos ⟨by omega, hlt⟩]
      obtain ⟨H, B, ht⟩ := rightRotate_avl d dl hlh
        (1 + max (height (node dl a b hlh)) (height r)) iHa iHb hHr iBa iBb hBr
        (by omega) (by omega) (by omega) (by omega)
      refine ⟨H, B, ?_, ?_, ?_⟩
      · exact BST_rightRotate ⟨hbl, hbr, iBst, hBstr⟩
      · rw [keys_rightRotate, keys_node]
      · rcases ht with h1 | ⟨h1, h2⟩
        · exact h1
        · omega
    · exact absurd heq hkne
    · -- the key went into the left child's right subtree: left-right rotation
      rw [if_neg (by omega)] at hgb
      have hbpos : 0 < height b := by omega
      cases b with
      | nil => simp at hbpos
      | node db b1 b2 hbh =>
        obtain ⟨hbh_eq, iHb1, iHb2⟩ := iHb
        obtain ⟨bb1, bb2, iBb1, iBb2⟩ := iBb
        simp only [height_node] at hbpos hgb hbf2 hlh_eq ibal1 ibal2
        simp only [rebalanceInsert, updateHeight_node, getBalance_node,
          leftOf_node, rightOf_node, dataOf_node, height_node, setLeft_node]
        rw [if_neg (by rintro ⟨-, c⟩; omega), if_neg (by rintro ⟨c, -⟩; omega),
          if_pos ⟨by omega, hgt⟩]
        obtain ⟨H, B, ht⟩ := leftRightRotate_avl d dl db hbh hlh
          (1 + max (height (node dl a (node db b1 b2 hbh) hlh)) (height r))
          iHa iHb1 iHb2 hHr iBa iBb1 iBb2 hBr
          (by omega) (by omega) (by omega) (by omega)
        refine ⟨H, B, ?_, ?_, ht⟩
        · refine BST_rightRotate ⟨?_, hbr, BST_leftRotate iBst, hBstr⟩
          rw [keys_leftRotate]
          exact hbl
        · rw [keys_rightRotate, keys_node, keys_leftRotate]

theorem insertRebalance_right_rot (d : Int) {l r' : Node} (h k : Int)
    (hHl : HeightInv l) (hBl : Balanced l) (iH : HeightInv r') (iB : Balanced r')
    (hBstl : BST l) (iBst : BST r')
    (hbl : ∀ x ∈ keys l, x < d) (hbr : ∀ x ∈ keys r', d < x)
    (hbf2 : height r' = height l + 2)
    (hgb : getBalance r' = if k < dataOf r' then 1 else -1)
    (hkne : k ≠ dataOf r') :
    HeightInv (rebalanceInsert (node d l r' h) k) ∧
    Balanced (rebalanceInsert (node d l r' h) k) ∧
    BST (rebalanceInsert (node d l r' h) k) ∧
    keys (rebalanceInsert (node d l r' h) k) = insert d (keys l ∪ keys r') ∧
    height (rebalanceInsert (node d l r' h) k) = height l + 2 := by
  have h0l := height_nonneg hHl
  cases r' with
  | nil => simp at hbf2; omega
  | node dr b c hrh =>
    obtain ⟨hrh_eq, iHb, iHc⟩ := iH
    obtain ⟨ibal1, ibal2, iBb, iBc⟩ := iB
    simp only [getBalance_node, dataOf_node, height_node] at hgb hkne hbf2
    have h0b := height_nonneg iHb
    have h0c := height_nonneg iHc
    rcases lt_trichotomy k dr with hlt | heq | hgt
    · -- the key went into the right child's left subtree: right-left rotation
      rw [if_pos hlt] at hgb
      have hbpos : 0 < height b := by omega
      cases b with
      | nil => simp at hbpos
      | node db b1 b2 hbh =>
        obtain ⟨hbh_eq, iHb1, iHb2⟩ := iHb
        obtain ⟨bb1, bb2, iBb1, iBb2⟩ := iBb
        simp only [height_node] at hbpos hgb hbf2 hrh_eq ibal1 ibal2
        simp only [rebalanceInsert, updateHeight_node, getBalance_node,
          leftOf_node, rightOf_node, dataOf_node, height_node, setRight_node]
        rw [if_neg (by rintro ⟨c', -⟩; omega), if_neg (by rintro ⟨-, c'⟩; omega),
          if_neg (by rintro ⟨c', -⟩; omega), if_pos ⟨by omega, hlt⟩]
        obtain ⟨H, B, ht⟩ := rightLeftRotate_avl d dr db hbh hrh
          (1 + max (height l) (height (node dr (node db b1 b2 hbh) c hrh)))
          hHl iHb1 iHb2 iHc hBl iBb1 iBb2 iBc
          (by omega) (by omega) (by omega) (by omega)
        refine ⟨H, B, ?_, ?_, ht⟩
        · refine BST_leftRotate ⟨hbl, ?_, hBstl, BST_rightRotate iBst⟩
          rw [keys_rightRotate]
          exact hbr
        · rw [keys_leftRotate, keys_node, keys_rightRotate]
    · exact absurd heq hkne
    · -- the key went into the right child's right subtree: single left rotation
      rw [if_neg (by omega)] at hgb
      simp only [rebalanceInsert, updateHeight_node, getBalance_node,
        leftOf_node, rightOf_node, dataOf_node, height_node]
      rw [if_neg (by rintro ⟨c', -⟩; omega), if_pos ⟨by omega, hgt⟩]
      obtain ⟨H, B, ht⟩ := leftRotate_avl d dr hrh
        (1 + max (height l) (height (node dr b c hrh))) hHl iHb iHc hBl iBb iBc
        (by omega) (by omega) (by omega) (by omega)
      refine ⟨H, B, ?_, ?_, ?_⟩
      · exact BST_leftRotate ⟨hbl, hbr, hBstl, iBst⟩
      · rw [keys_leftRotate, keys_node]
      · rcases ht with h1 | ⟨h1, h2⟩
        · exact h1
        · omega

theorem insert_union_left (d k : Int) (A B : Finset Int) :
    insert d (insert k A ∪ B) = insert k (insert d (A ∪ B)) := by
  ext x
  simp only [Finset.mem_insert, Finset.mem_union]
  tauto

theorem insert_union_right (d k : Int) (A B : Finset Int) :
    insert d (A ∪ insert k B) = insert k (insert d (A ∪ B)) := by
  ext x
  simp only [Finset.mem_insert, Finset.mem_union]
  tauto

/-! ### The main inductive invariant of `insertNode` -/

set_option maxHeartbeats 2000000 in
/-- `insertNode` preserves all three structural invariants, adds exactly
the inserted key, changes the height by at most one, is the identity on
an already present key, and when the subtree grew the new root's balance
factor is `+1` exactly when the key is left of the new root's key. -/
theorem insertNode_spec (k : Int) : ∀ (t : Node),
    HeightInv t → Balanced t → BST t →
    HeightInv (insertNode t k) ∧ Balanced (insertNode t k) ∧
    BST (insertNode t k) ∧
    keys (insertNode t k) = insert k (keys t) ∧
    (height (insertNode t k) = height t ∨
      height (insertNode t k) = height t + 1) ∧
    (k ∈ keys t → insertNode t k = t) ∧
    (t ≠ nil → height (insertNode t k) = height t + 1 →
      k ≠ dataOf (insertNode t k) ∧
      getBalance (insertNode t k) =
        if k < dataOf (insertNode t k) then 1 else -1) := by
  intro t
  induction t with
  | nil =>
    intro _ _ _
    refine ⟨⟨by simp, trivial, trivial⟩, ⟨by simp, by simp, trivial, trivial⟩,
      ⟨by simp, by simp, trivial, trivial⟩, by simp [insertNode],
      Or.inr (by simp [insertNode]), ?_, ?_⟩
    · intro hmem
      simp at hmem
    · intro hne
      exact absurd rfl hne
  | node d l r h ihl ihr =>
    intro hH hB hBst
    obtain ⟨hh, hHl, hHr⟩ := hH
    obtain ⟨hb1, hb2, hBl, hBr⟩ := hB
    obtain ⟨hkl, hkr, hBstl, hBstr⟩ := hBst
    have h0l := height_nonneg hHl
    have h0r := height_nonneg hHr
    obtain ⟨iH, iB, iBst, ikeys, iht, imem, igrow⟩ := ihl hHl hBl hBstl
    obtain ⟨jH, jB, jBst, jkeys, jht, jmem, jgrow⟩ := ihr hHr hBr hBstr
    rcases lt_trichotomy k d with hkd | heq | hkd
    · -- k < d : insert into the left subtree
      have hEq : insertNode (node d l r h) k =
          rebalanceInsert (node d (insertNode l k) r h) k := by
        simp only [insertNode]
        rw [if_pos hkd]
      have hbl' : ∀ x ∈ keys (insertNode l k), x < d := by
        intro x hx
        rw [ikeys] at hx
        rcases Finset.mem_insert.mp hx with rfl | hx
        · exact hkd
        · exact hkl x hx
      by_cases hkin : k ∈ keys l
      · -- already present: nothing changes
        rw [imem hkin] at hEq
        rw [rebalanceInsert_eq_self (t := node d l r h) k ⟨hh, hHl, hHr⟩
          ⟨hb1, hb2, hBl, hBr⟩] at hEq
        rw [hEq]
        refine ⟨⟨hh, hHl, hHr⟩, ⟨hb1, hb2, hBl, hBr⟩, ⟨hkl, hkr, hBstl, hBstr⟩,
          (Finset.insert_eq_self.mpr (by
            simp only [keys_node, Finset.mem_insert, Finset.mem_union]
            exact Or.inr (Or.inl hkin))).symm,
          Or.inl rfl, fun _ => rfl, ?_⟩
        intro _ habs
        simp only [height_node] at habs
        omega
      · have hknotin : k ∉ keys (node d l r h) := by
          simp only [keys_node, Finset.mem_insert, Finset.mem_union]
          push_neg
          exact ⟨by omega, hkin, fun hmem => absurd (hkr k hmem) (by omega)⟩
        rcases iht with hsame | hgrow1
        · -- the left subtree kept its height: no rotation
          rw [rebalanceInsert_no_rotation d _ r h k (by omega) (by omega)] at hEq
          rw [hEq]
          refine ⟨⟨rfl, iH, hHr⟩, ⟨by omega, by omega, iB, hBr⟩,
            ⟨hbl', hkr, iBst, hBstr⟩, ?_, ?_, ?_, ?_⟩
          · simp only [keys_node, ikeys]
            exact insert_union_left d k (keys l) (keys r)
          · left
            simp only [height_node]
            omega
          · intro hmem
            exact absurd hmem hknotin
          · intro _ habs
            simp only [height_node] at habs
            omega
        · -- the left subtree grew by one
          by_cases hcase : height l - height r ≤ 0
          · -- new balance factor still at most 1: no rotation
            rw [rebalanceInsert_no_rotation d _ r h k (by omega) (by omega)] at hEq
            rw [hEq]
            refine ⟨⟨rfl, iH, hHr⟩, ⟨by omega, by omega, iB, hBr⟩,
              ⟨hbl', hkr, iBst, hBstr⟩, ?_, ?_, ?_, ?_⟩
            · simp only [keys_node, ikeys]
              exact insert_union_left d k (keys l) (keys r)
            · simp only [height_node]
              omega
            · intro hmem
              exact absurd hmem hknotin
            · intro _ hgrowth
              simp only [height_node] at hgrowth
              refine ⟨by simp only [dataOf_node]; omega, ?_⟩
              simp only [getBalance_node, dataOf_node, height_node]
              rw [if_pos hkd]
              omega
          · -- new balance factor 2: one of the two left rotations fires
            obtain ⟨hkne, hgb⟩ := igrow (ne_nil_of_height_pos (by omega)) hgrow1
            obtain ⟨H, B, Bst, hkeys', hht⟩ :=
              insertRebalance_left_rot d h k iH iB hHr hBr iBst hBstr hbl' hkr
                (by omega) hgb hkne
            rw [hEq]
            refine ⟨H, B, Bst, ?_, ?_, ?_, ?_⟩
            · rw [hkeys', ikeys]
              simp only [keys_node]
              exact insert_union_left d k (keys l) (keys r)
            · left
              simp only [height_node]
              omega
            · intro hmem
              exact absurd hmem hknotin
            · intro _ habs
              simp only [height_node] at habs
              omega
    · -- k = d : the key is already at this node
      subst heq
      have hEq : insertNode (node k l r h) k = node k l r h := by
        simp only [insertNode]
        rw [if_neg (lt_irrefl k), if_neg (lt_irrefl k)]
      rw [hEq]
      refine ⟨⟨hh, hHl, hHr⟩, ⟨hb1, hb2, hBl, hBr⟩, ⟨hkl, hkr, hBstl, hBstr⟩,
        (Finset.insert_eq_self.mpr (by simp)).symm, Or.inl rfl, fun _ => rfl, ?_⟩
      intro _ habs
      simp only [height_node] at habs
      omega
    · -- d < k : insert into the right subtree
      have hEq : insertNode (node d l r h) k =
          rebalanceInsert (node d l (insertNode r k) h) k := by
        simp only [insertNode]
        rw [if_neg (by omega), if_pos hkd]
      have hbr' : ∀ x ∈ keys (insertNode r k), d < x := by
        intro x hx
        rw [jkeys] at hx
        rcases Finset.mem_insert.mp hx with rfl | hx
        · exact hkd
        · exact hkr x hx
      by_cases hkin : k ∈ keys r
      · rw [jmem hkin] at hEq
        rw [rebalanceInsert_eq_self (t := node d l r h) k ⟨hh, hHl, hHr⟩
          ⟨hb1, hb2, hBl, hBr⟩] at hEq
        rw [hEq]
        refine ⟨⟨hh, hHl, hHr⟩, ⟨hb1, hb2, hBl, hBr⟩, ⟨hkl, hkr, hBstl, hBstr⟩,
          (Finset.insert_eq_self.mpr (by
            simp only [keys_node, Finset.mem_insert, Finset.mem_union]
            exact Or.inr (Or.inr hkin))).symm,
          Or.inl rfl, fun _ => rfl, ?_⟩
        intro _ habs
        simp only [height_node] at habs
        omega
      · have hknotin : k ∉ keys (node d l r h) := by
          simp only [keys_node, Finset.mem_insert, Finset.mem_union]
          push_neg
          exact ⟨by omega, fun hmem => absurd (hkl k hmem) (by omega), hkin⟩
        rcases jht with hsame | hgrow1
        · rw [rebalanceInsert_no_rotation d l _ h k (by omega) (by omega)] at hEq
          rw [hEq]
          refine ⟨⟨rfl, hHl, jH⟩, ⟨by omega, by omega, hBl, jB⟩,
            ⟨hkl, hbr', hBstl, jBst⟩, ?_, ?_, ?_, ?_⟩
          · simp only [keys_node, jkeys]
            exact insert_union_right d k (keys l) (keys r)
          · left
            simp only [height_node]
            omega
          · intro hmem
            exact absurd hmem hknotin
          · intro _ habs
            simp only [height_node] at habs
            omega
        · by_cases hcase : 0 ≤ height l - height r
          · -- new balance factor still at least -1: no rotation
            rw [rebalanceInsert_no_rotation d l _ h k (by omega) (by omega)] at hEq
            rw [hEq]
            refine ⟨⟨rfl, hHl, jH⟩, ⟨by omega, by omega, hBl, jB⟩,
              ⟨hkl, hbr', hBstl, jBst⟩, ?_, ?_, ?_, ?_⟩
            · simp only [keys_node, jkeys]
              exact insert_union_right d k (keys l) (keys r)
            · simp only [height_node]
              omega
            · intro hmem
              exact absurd hmem hknotin
            · intro _ hgrowth
              simp only [height_node] at hgrowth
              refine ⟨by simp only [dataOf_node]; omega, ?_⟩
              simp only [getBalance_node, dataOf_node, height_node]
              rw [if_neg (by omega)]
              omega
          · -- new balance factor -2: one of the two right rotations fires
            obtain ⟨hkne, hgb⟩ := jgrow (ne_nil_of_height_pos (by omega)) hgrow1
            obtain ⟨H, B, Bst, hkeys', hht⟩ :=
              insertRebalance_right_rot d h k hHl hBl jH jB hBstl jBst hkl hbr'
                (by omega) hgb hkne
            rw [hEq]
            refine ⟨H, B, Bst, ?_, ?_, ?_, ?_⟩
            · rw [hkeys', jkeys]
              simp only [keys_node]
              exact insert_union_right d k (keys l) (keys r)
            · left
              simp only [height_node]
              omega
            · intro hmem
              exact absurd hmem hknotin
            · intro _ habs
              simp only [height_node] at habs
              omega

/-! ### The in-order successor helper -/

/-- `minValueNode` returns a node of the subtree holding its least key. -/
theorem minValueNode_spec : ∀ (t : Node), BST t → t ≠ nil →
    dataOf (minValueNode t) ∈ keys t ∧
      ∀ x ∈ keys t, dataOf (minValueNode t) ≤ x := by
  intro t
  induction t with
  | nil => intro _ hne; exact absurd rfl hne
  | node d l r h ihl ihr =>
    intro hBst _
    obtain ⟨hkl, hkr, hBstl, hBstr⟩ := hBst
    cases l with
    | nil =>
      constructor
      · simp [minValueNode]
      · intro x hx
        simp only [keys_node, Finset.mem_insert, Finset.mem_union] at hx
        simp only [minValueNode, dataOf_node]
        rcases hx with rfl | hx | hx
        · exact le_refl x
        · simp at hx
        · exact le_of_lt (hkr x hx)
    | node dl ll lr hl =>
      have hmin : minValueNode (node d (node dl ll lr hl) r h) =
          minValueNode (node dl ll lr hl) := by
        simp [minValueNode]
      obtain ⟨hmem, hle⟩ := ihl hBstl (by simp)
      rw [hmin]
      have hmd : dataOf (minValueNode (node dl ll lr hl)) < d := hkl _ hmem
      constructor
      · rw [keys_node]
        exact Finset.mem_insert.mpr (Or.inr (Finset.mem_union_left _ hmem))
      · intro x hx
        rw [keys_node] at hx
        rcases Finset.mem_insert.mp hx with rfl | hx
        · exact le_of_lt hmd
        · rcases Finset.mem_union.mp hx with hx | hx
          · exact hle x hx
          · exact le_of_lt (lt_trans hmd (hkr x hx))

/-! ### Finset bookkeeping for deletion -/

theorem erase_insert_union_left (d k : Int) (A B : Finset Int)
    (h1 : k ≠ d) (h2 : k ∉ B) :
    insert d (A.erase k ∪ B) = (insert d (A ∪ B)).erase k := by
  ext x
  simp only [Finset.mem_insert, Finset.mem_union, Finset.mem_erase]
  constructor
  · rintro (rfl | ⟨hxk, hxA⟩ | hxB)
    · exact ⟨Ne.symm h1, Or.inl rfl⟩
    · exact ⟨hxk, Or.inr (Or.inl hxA)⟩
    · exact ⟨fun hc => h2 (hc ▸ hxB), Or.inr (Or.inr hxB)⟩
  · rintro ⟨hxk, rfl | hxA | hxB⟩
    · exact Or.inl rfl
    · exact Or.inr (Or.inl ⟨hxk, hxA⟩)
    · exact Or.inr (Or.inr hxB)

theorem erase_insert_union_right (d k : Int) (A B : Finset Int)
    (h1 : k ≠ d) (h2 : k ∉ A) :
    insert d (A ∪ B.erase k) = (insert d (A ∪ B)).erase k := by
  ext x
  simp only [Finset.mem_insert, Finset.mem_union, Finset.mem_erase]
  constructor
  · rintro (rfl | hxA | ⟨hxk, hxB⟩)
    · exact ⟨Ne.symm h1, Or.inl rfl⟩
    · exact ⟨fun hc => h2 (hc ▸ hxA), Or.inr (Or.inl hxA)⟩
    · exact ⟨hxk, Or.inr (Or.inr hxB)⟩
  · rintro ⟨hxk, rfl | hxA | hxB⟩
    · exact Or.inl rfl
    · exact Or.inr (Or.inl hxA)
    · exact Or.inr (Or.inr ⟨hxk, hxB⟩)

/-- Unfolding of `deleteNode` at a non-null node (the equation holds
definitionally once both children's constructors are known). -/
theorem deleteNode_node (d : Int) (l r : Node) (h k : Int) :
    deleteNode (node d l r h) k =
      if k < d then rebalanceDelete (node d (deleteNode l k) r h)
      else if d < k then rebalanceDelete (node d l (deleteNode r k) h)
      else
        match l, r with
        | nil, nil => nil
        | nil, c@(node _ _ _ _) => rebalanceDelete c
        | c@(node _ _ _ _), nil => rebalanceDelete c
        | node dl ll lr hl, node dr rl rr hr =>
          rebalanceDelete
            (node (dataOf (minValueNode (node dr rl rr hr)))
              (node dl ll lr hl)
              (deleteNode (node dr rl rr hr)
                (dataOf (minValueNode (node dr rl rr hr)))) h) := by
  cases l <;> cases r <;> rfl

/-! ### The full rebalancing step of `deleteNode` -/

/-- After deleting from a child, the height-update-and-rebalance step of
lines 158–181 restores all invariants, keeps the key set, and produces a
subtree whose height is the recomputed `1 + max` or one less (the latter
only when a rotation fired on a balance factor of `±2`). -/
theorem deleteRebalance_spec (d : Int) {l r : Node} (h : Int)
    (hHl : HeightInv l) (hBl : Balanced l) (hHr : HeightInv r) (hBr : Balanced r)
    (hBstl : BST l) (hBstr : BST r)
    (hbl : ∀ x ∈ keys l, x < d) (hbr : ∀ x ∈ keys r, d < x)
    (hlow : -2 ≤ height l - height r) (hhigh : height l - height r ≤ 2) :
    HeightInv (rebalanceDelete (node d l r h)) ∧
    Balanced (rebalanceDelete (node d l r h)) ∧
    BST (rebalanceDelete (node d l r h)) ∧
    keys (rebalanceDelete (node d l r h)) = insert d (keys l ∪ keys r) ∧
    (height (rebalanceDelete (node d l r h)) = 1 + max (height l) (height r) ∨
      (height (rebalanceDelete (node d l r h)) + 1 =
          1 + max (height l) (height r) ∧
        (height l - height r = 2 ∨ height l - height r = -2))) := by
  have h0l := height_nonneg hHl
  have h0r := height_nonneg hHr
  by_cases hmid : -1 ≤ height l - height r ∧ height l - height r ≤ 1
  · rw [rebalanceDelete_no_rotation d l r h (by omega) (by omega)]
    exact ⟨⟨rfl, hHl, hHr⟩, ⟨by omega, by omega, hBl, hBr⟩,
      ⟨hbl, hbr, hBstl, hBstr⟩, rfl, Or.inl (by simp only [height_node])⟩
  · rcases (by omega :
      height l - height r = 2 ∨ height l - height r = -2) with hbf | hbf
    · -- left-heavy by two
      cases l with
      | nil => simp only [height_nil] at hbf; omega
      | node dl a b hlh =>
        obtain ⟨hlh_eq, iHa, iHb⟩ := hHl
        obtain ⟨ibal1, ibal2, iBa, iBb⟩ := hBl
        simp only [height_node] at hbf h0l
        have h0a := height_nonneg iHa
        have h0b := height_nonneg iHb
        by_cases hba : 0 ≤ height a - height b
        · -- balance(left) ≥ 0 : single right rotation
          simp only [rebalanceDelete, updateHeight_node, getBalance_node,
            leftOf_node, rightOf_node, height_node]
          rw [if_pos ⟨by omega, hba⟩]
          obtain ⟨H, B, ht⟩ := rightRotate_avl d dl hlh
            (1 + max hlh (height r)) iHa iHb hHr
            iBa iBb hBr (by omega) (by omega) hba (by omega)
          refine ⟨H, B, ?_, ?_, ?_⟩
          · exact BST_rightRotate ⟨hbl, hbr, hBstl, hBstr⟩
          · rw [keys_rightRotate, keys_node]
          · omega
        · -- balance(left) < 0 : left-right rotation
          have hb1pos : 0 < height b := by omega
          cases b with
          | nil => simp at hb1pos
          | node db b1 b2 hbh =>
            obtain ⟨hbh_eq, iHb1, iHb2⟩ := iHb
            obtain ⟨bb1, bb2, iBb1, iBb2⟩ := iBb
            simp only [height_node] at hb1pos hba hlh_eq ibal1 ibal2
            simp only [rebalanceDelete, updateHeight_node, getBalance_node,
              leftOf_node, rightOf_node, height_node, setLeft_node]
            rw [if_neg (by rintro ⟨-, c⟩; omega), if_pos ⟨by omega, by omega⟩]
            obtain ⟨H, B, ht⟩ := leftRightRotate_avl d dl db hbh hlh
              (1 + max hlh (height r))
              iHa iHb1 iHb2 hHr iBa iBb1 iBb2 hBr
              (by omega) (by omega) (by omega) (by omega)
            refine ⟨H, B, ?_, ?_, ?_⟩
            · refine BST_rightRotate ⟨?_, hbr, BST_leftRotate hBstl, hBstr⟩
              rw [keys_leftRotate]
              exact hbl
            · rw [keys_rightRotate, keys_node, keys_leftRotate]
            · omega
    · -- right-heavy by two
      cases r with
      | nil => simp only [height_nil] at hbf; omega
      | node dr b c hrh =>
        obtain ⟨hrh_eq, iHb, iHc⟩ := hHr
        obtain ⟨ibal1, ibal2, iBb, iBc⟩ := hBr
        simp only [height_node] at hbf h0r
        have h0b := height_nonneg iHb
        have h0c := height_nonneg iHc
        by_cases hbc : height b - height c ≤ 0
        · -- balance(right) ≤ 0 : single left rotation
          simp only [rebalanceDelete, updateHeight_node, getBalance_node,
            leftOf_node, rightOf_node, height_node]
          rw [if_neg (by rintro ⟨cc, -⟩; omega),
            if_neg (by rintro ⟨cc, -⟩; omega), if_pos ⟨by omega, hbc⟩]
          obtain ⟨H, B, ht⟩ := leftRotate_avl d dr hrh
            (1 + max (height l) hrh) hHl iHb iHc
            hBl iBb iBc (by omega) (by omega) hbc (by omega)
          refine ⟨H, B, ?_, ?_, ?_⟩
          · exact BST_leftRotate ⟨hbl, hbr, hBstl, hBstr⟩
          · rw [keys_leftRotate, keys_node]
          · omega
        · -- balance(right) > 0 : right-left rotation
          have hb1pos : 0 < height b := by omega
          cases b with
          | nil => simp at hb1pos
          | node db b1 b2 hbh =>
            obtain ⟨hbh_eq, iHb1, iHb2⟩ := iHb
            obtain ⟨bb1, bb2, iBb1, iBb2⟩ := iBb
            simp only [height_node] at hb1pos hbc hrh_eq ibal1 ibal2
            simp only [rebalanceDelete, updateHeight_node, getBalance_node,
              leftOf_node, rightOf_node, height_node, setRight_node]
            rw [if_neg (by rintro ⟨cc, -⟩; omega),
              if_neg (by rintro ⟨cc, -⟩; omega),
              if_neg (by rintro ⟨-, cc⟩; omega), if_pos ⟨by omega, by omega⟩]
            obtain ⟨H, B, ht⟩ := rightLeftRotate_avl d dr db hbh hrh
              (1 + max (height l) hrh)
              hHl iHb1 iHb2 iHc hBl iBb1 iBb2 iBc
              (by omega) (by omega) (by omega) (by omega)
            refine ⟨H, B, ?_, ?_, ?_⟩
            · refine BST_leftRotate ⟨hbl, ?_, hBstl, BST_rightRotate hBstr⟩
              rw [keys_rightRotate]
              exact hbr
            · rw [keys_leftRotate, keys_node, keys_rightRotate]
            · omega

set_option maxHeartbeats 2000000 in
/-- `deleteNode` preserves all three structural invariants, removes
exactly the requested key, shrinks the height by at most one, and is the
identity when the key is absent. -/
theorem deleteNode_spec : ∀ (t : Node) (k : Int),
    HeightInv t → Balanced t → BST t →
    HeightInv (deleteNode t k) ∧ Balanced (deleteNode t k) ∧
    BST (deleteNode t k) ∧
    keys (deleteNode t k) = (keys t).erase k ∧
    (height (deleteNode t k) = height t ∨
      height (deleteNode t k) + 1 = height t) ∧
    (k ∉ keys t → deleteNode t k = t) := by
  intro t
  induction t with
  | nil =>
    intro k _ _ _
    exact ⟨trivial, trivial, trivial, by simp [deleteNode], Or.inl rfl,
      fun _ => rfl⟩
  | node d l r h ihl ihr =>
    intro k hH hB hBst
    obtain ⟨hh, hHl, hHr⟩ := hH
    obtain ⟨hb1, hb2, hBl, hBr⟩ := hB
    obtain ⟨hkl, hkr, hBstl, hBstr⟩ := hBst
    have h0l := height_nonneg hHl
    have h0r := height_nonneg hHr
    rcases lt_trichotomy k d with hkd | heq | hkd
    · -- k < d : delete in the left subtree
      have hEq : deleteNode (node d l r h) k =
          rebalanceDelete (node d (deleteNode l k) r h) := by
        rw [deleteNode_node, if_pos hkd]
      obtain ⟨iH, iB, iBst, ikeys, iht, imem⟩ := ihl k hHl hBl hBstl
      have hbl' : ∀ x ∈ keys (deleteNode l k), x < d := by
        intro x hx
        rw [ikeys] at hx
        exact hkl x (Finset.mem_of_mem_erase hx)
      obtain ⟨H, B, Bst, hkeys', hht⟩ :=
        deleteRebalance_spec d h iH iB hHr hBr iBst hBstr hbl' hkr
          (by omega) (by omega)
      rw [hEq]
      refine ⟨H, B, Bst, ?_, ?_, ?_⟩
      · rw [hkeys', ikeys, keys_node]
        exact erase_insert_union_left d k (keys l) (keys r) (by omega)
          (fun hm => absurd (hkr k hm) (by omega))
      · simp only [height_node]
        omega
      · intro hnot
        have hknl : k ∉ keys l := fun hm => hnot (by
          rw [keys_node]
          exact Finset.mem_insert.mpr (Or.inr (Finset.mem_union_left _ hm)))
        rw [imem hknl, rebalanceDelete_eq_self (t := node d l r h)
          ⟨hh, hHl, hHr⟩ ⟨hb1, hb2, hBl, hBr⟩]
    · -- k = d : this node holds the key
      subst heq
      cases l with
      | nil =>
        cases r with
        | nil =>
          have hEq : deleteNode (node k nil nil h) k = nil := by
            rw [deleteNode_node, if_neg (lt_irrefl k), if_neg (lt_irrefl k)]
          rw [hEq]
          simp only [height_nil, height_node] at hh ⊢
          refine ⟨trivial, trivial, trivial, ?_, ?_, ?_⟩
          · simp
          · right
            omega
          · intro hnot
            exact absurd (by simp : (k : Int) ∈ keys (node k nil nil h)) hnot
        | node dr rl rr hr2 =>
          -- one child (the right one): the node becomes a copy of it
          have hEq : deleteNode (node k nil (node dr rl rr hr2) h) k =
              rebalanceDelete (node dr rl rr hr2) := by
            rw [deleteNode_node, if_neg (lt_irrefl k), if_neg (lt_irrefl k)]
          rw [hEq, rebalanceDelete_eq_self hHr hBr]
          refine ⟨hHr, hBr, hBstr, ?_, ?_, ?_⟩
          · have hK : keys (node k nil (node dr rl rr hr2) h) =
                insert k (keys (node dr rl rr hr2)) := by
              rw [keys_node, keys_nil, Finset.empty_union]
            rw [hK,
              Finset.erase_insert (fun hm => absurd (hkr k hm) (lt_irrefl k))]
          · right
            simp only [height_nil, height_node] at hh h0r ⊢
            omega
          · intro hnot
            exact absurd (by simp :
              (k : Int) ∈ keys (node k nil (node dr rl rr hr2) h)) hnot
      | node dl ll lr hl2 =>
        cases r with
        | nil =>
          -- one child (the left one)
          have hEq : deleteNode (node k (node dl ll lr hl2) nil h) k =
              rebalanceDelete (node dl ll lr hl2) := by
            rw [deleteNode_node, if_neg (lt_irrefl k), if_neg (lt_irrefl k)]
          rw [hEq, rebalanceDelete_eq_self hHl hBl]
          refine ⟨hHl, hBl, hBstl, ?_, ?_, ?_⟩
          · have hK : keys (node k (node dl ll lr hl2) nil h) =
                insert k (keys (node dl ll lr hl2)) := by
              rw [keys_node, keys_nil, Finset.union_empty]
            rw [hK,
              Finset.erase_insert (fun hm => absurd (hkl k hm) (lt_irrefl k))]
          · right
            simp only [height_nil, height_node] at hh h0l ⊢
            omega
          · intro hnot
            exact absurd (by simp :
              (k : Int) ∈ keys (node k (node dl ll lr hl2) nil h)) hnot
        | node dr rl rr hr2 =>
          -- two children: copy in the in-order successor's key and
          -- delete it from the right subtree
          obtain ⟨hmmem, hmle⟩ :=
            minValueNode_spec (node dr rl rr hr2) hBstr (by simp)
          have hkdm : k < dataOf (minValueNode (node dr rl rr hr2)) :=
            hkr _ hmmem
          have hEq : deleteNode
              (node k (node dl ll lr hl2) (node dr rl rr hr2) h) k =
              rebalanceDelete (node (dataOf (minValueNode (node dr rl rr hr2)))
                (node dl ll lr hl2)
                (deleteNode (node dr rl rr hr2)
                  (dataOf (minValueNode (node dr rl rr hr2)))) h) := by
            rw [deleteNode_node, if_neg (lt_irrefl k), if_neg (lt_irrefl k)]
          obtain ⟨jH, jB, jBst, jkeys, jht, jmem⟩ :=
            ihr (dataOf (minValueNode (node dr rl rr hr2))) hHr hBr hBstr
          have hbl2 : ∀ x ∈ keys (node dl ll lr hl2),
              x < dataOf (minValueNode (node dr rl rr hr2)) :=
            fun x hx => lt_trans (hkl x hx) hkdm
          have hbr2 : ∀ x ∈ keys (deleteNode (node dr rl rr hr2)
              (dataOf (minValueNode (node dr rl rr hr2)))),
              dataOf (minValueNode (node dr rl rr hr2)) < x := by
            intro x hx
            rw [jkeys] at hx
            obtain ⟨hne', hxmem⟩ := Finset.mem_erase.mp hx
            exact lt_of_le_of_ne (hmle x hxmem) (Ne.symm hne')
          obtain ⟨H, B, Bst, hkeys', hht⟩ :=
            deleteRebalance_spec (dataOf (minValueNode (node dr rl rr hr2)))
              h hHl hBl jH jB hBstl jBst hbl2 hbr2 (by omega) (by omega)
          rw [hEq]
          refine ⟨H, B, Bst, ?_, ?_, ?_⟩
          · have hK : keys (node k (node dl ll lr hl2) (node dr rl rr hr2) h) =
                insert k (keys (node dl ll lr hl2) ∪
                  keys (node dr rl rr hr2)) :=
              keys_node k _ _ h
            have hknm : k ∉ keys (node dl ll lr hl2) ∪
                keys (node dr rl rr hr2) := by
              intro hm
              rcases Finset.mem_union.mp hm with hm | hm
              · exact absurd (hkl k hm) (lt_irrefl k)
              · exact absurd (hkr k hm) (lt_irrefl k)
            rw [hkeys', jkeys, hK, Finset.erase_insert hknm,
              ← Finset.union_insert, Finset.insert_erase hmmem]
          · simp only [height_node]
            omega
          · intro hnot
            exact absurd (by simp : (k : Int) ∈
              keys (node k (node dl ll lr hl2) (node dr rl rr hr2) h)) hnot
    · -- d < k : delete in the right subtree
      have hEq : deleteNode (node d l r h) k =
          rebalanceDelete (node d l (deleteNode r k) h) := by
        rw [deleteNode_node, if_neg (by omega), if_pos hkd]
      obtain ⟨iH, iB, iBst, ikeys, iht, imem⟩ := ihr k hHr hBr hBstr
      have hbr' : ∀ x ∈ keys (deleteNode r k), d < x := by
        intro x hx
        rw [ikeys] at hx
        exact hkr x (Finset.mem_of_mem_erase hx)
      obtain ⟨H, B, Bst, hkeys', hht⟩ :=
        deleteRebalance_spec d h hHl hBl iH iB hBstl iBst hkl hbr'
          (by omega) (by omega)
      rw [hEq]
      refine ⟨H, B, Bst, ?_, ?_, ?_⟩
      · rw [hkeys', ikeys, keys_node]
        exact erase_insert_union_right d k (keys l) (keys r) (by omega)
          (fun hm => absurd (hkl k hm) (by omega))
      · simp only [height_node]
        omega
      · intro hnot
        have hknr : k ∉ keys r := fun hm => hnot (by
          rw [keys_node]
          exact Finset.mem_insert.mpr (Or.inr (Finset.mem_union_right _ hm)))
        rw [imem hknr, rebalanceDelete_eq_self (t := node d l r h)
          ⟨hh, hHl, hHr⟩ ⟨hb1, hb2, hBl, hBr⟩]

/-! ### Search correctness -/

theorem searchNodeUtil_spec : ∀ (t : Node) (k : Int), BST t →
    (searchNodeUtil t k ≠ nil ↔ k ∈ keys t) := by
  intro t
  induction t with
  | nil =>
    intro k _
    simp [searchNodeUtil]
  | node d l r h ihl ihr =>
    intro k hBst
    obtain ⟨hkl, hkr, hBstl, hBstr⟩ := hBst
    rcases lt_trichotomy k d with hkd | heq | hkd
    · have hEq : searchNodeUtil (node d l r h) k = searchNodeUtil l k := by
        simp only [searchNodeUtil]
        rw [if_neg (by omega), if_pos hkd]
      rw [hEq, ihl k hBstl, keys_node]
      constructor
      · intro hm
        exact Finset.mem_insert.mpr (Or.inr (Finset.mem_union_left _ hm))
      · intro hm
        rcases Finset.mem_insert.mp hm with rfl | hm
        · omega
        · rcases Finset.mem_union.mp hm with hm | hm
          · exact hm
          · exact absurd (hkr k hm) (by omega)
    · subst heq
      have hEq : searchNodeUtil (node k l r h) k = node k l r h := by
        simp [searchNodeUtil]
      rw [hEq]
      simp
    · have hEq : searchNodeUtil (node d l r h) k = searchNodeUtil r k := by
        simp only [searchNodeUtil]
        rw [if_neg (by omega), if_neg (by omega)]
      rw [hEq, ihr k hBstr, keys_node]
      constructor
      · intro hm
        exact Finset.mem_insert.mpr (Or.inr (Finset.mem_union_right _ hm))
      · intro hm
        rcases Finset.mem_insert.mp hm with rfl | hm
        · omega
        · rcases Finset.mem_union.mp hm with hm | hm
          · exact absurd (hkl k hm) (by omega)
          · exact hm

theorem search_spec (t : Node) (k : Int) (hBst : BST t) :
    search t k = true ↔ k ∈ keys t := by
  rw [search, decide_eq_true_iff]
  exact searchNodeUtil_spec t k hBst

/-! ### Invariants along any sequence of public operations -/

theorem applyOps_go (ops : List Op) : ∀ (t : Node) (s : Finset Int),
    HeightInv t → Balanced t → BST t → keys t = s →
    HeightInv (List.foldl applyOp t ops) ∧
    Balanced (List.foldl applyOp t ops) ∧
    BST (List.foldl applyOp t ops) ∧
    keys (List.foldl applyOp t ops) = List.foldl applyOpSet s ops := by
  induction ops with
  | nil =>
    intro t s h1 h2 h3 h4
    exact ⟨h1, h2, h3, h4⟩
  | cons op rest ih =>
    intro t s h1 h2 h3 h4
    cases op with
    | ins k =>
      obtain ⟨H, B, Bst, K, _, _, _⟩ := insertNode_spec k t h1 h2 h3
      simp only [List.foldl_cons, applyOp, applyOpSet]
      exact ih (insertNode t k) (insert k s) H B Bst (by rw [K, h4])
    | del k =>
      obtain ⟨H, B, Bst, K, _, _⟩ := deleteNode_spec t k h1 h2 h3
      simp only [List.foldl_cons, applyOp, applyOpSet]
      exact ih (deleteNode t k) (s.erase k) H B Bst (by rw [K, h4])

theorem applyOps_inv (ops : List Op) :
    HeightInv (applyOps ops) ∧ Balanced (applyOps ops) ∧
    BST (applyOps ops) ∧ keys (applyOps ops) = applyOpsSet ops :=
  applyOps_go ops nil ∅ trivial trivial trivial rfl

/-! ### The reference set after bulk insertions and deletions -/

theorem foldl_ins_set (l : List Int) (s : Finset Int) :
    List.foldl applyOpSet s (l.map Op.ins) = s ∪ l.toFinset := by
  induction l generalizing s with
  | nil => simp
  | cons a l ih =>
    simp only [List.map_cons, List.foldl_cons, applyOpSet, ih,
      List.toFinset_cons]
    rw [Finset.insert_union, Finset.union_insert]

theorem foldl_del_set (l : List Int) (s : Finset Int) :
    List.foldl applyOpSet s (l.map Op.del) = s \ l.toFinset := by
  induction l generalizing s with
  | nil => simp
  | cons a l ih =>
    simp only [List.map_cons, List.foldl_cons, applyOpSet, ih,
      List.toFinset_cons]
    ext x
    simp only [Finset.mem_sdiff, Finset.mem_erase, Finset.mem_insert]
    tauto

theorem eq_nil_of_keys_empty : ∀ {t : Node}, keys t = ∅ → t = nil := by
  intro t
  cases t with
  | nil => intro _; rfl
  | node d l r h =>
    intro hk
    rw [keys_node] at hk
    exact absurd hk (Finset.insert_ne_empty d (keys l ∪ keys r))

/-! ### The real (recomputed) height agrees with the cached one -/

/-- The height of a subtree computed from scratch, ignoring the cached
`height` fields. -/
def realHeight : Node → Int
  | nil => 0
  | node _ l r _ => 1 + max (realHeight l) (realHeight r)

theorem height_eq_realHeight : ∀ {t : Node}, HeightInv t →
    height t = realHeight t := by
  intro t
  induction t with
  | nil => intro _; rfl
  | node d l r h ihl ihr =>
    intro hH
    obtain ⟨hh, hHl, hHr⟩ := hH
    simp only [height_node, realHeight, hh, ihl hHl, ihr hHr]

/-! ### Subtrees -/

/-- `Subtree s t`: the node `s` occurs somewhere in the tree `t`. -/
inductive Subtree : Node → Node → Prop where
  | refl (t : Node) : Subtree t t
  | left {s : Node} (d : Int) {l : Node} (r : Node) (h : Int) :
      Subtree s l → Subtree s (node d l r h)
  | right {s : Node} (d : Int) (l : Node) {r : Node} (h : Int) :
      Subtree s r → Subtree s (node d l r h)

theorem Subtree.heightInv {s t : Node} (hsub : Subtree s t)
    (hH : HeightInv t) : HeightInv s := by
  induction hsub with
  | refl => exact hH
  | left d r h _ ih => exact ih hH.2.1
  | right d l h _ ih => exact ih hH.2.2

theorem Subtree.balanced {s t : Node} (hsub : Subtree s t)
    (hB : Balanced t) : Balanced s := by
  induction hsub with
  | refl => exact hB
  | left d r h _ ih => exact ih hB.2.2.1
  | right d l h _ ih => exact ih hB.2.2.2

theorem eq_nil_of_height_eq_zero : ∀ {t : Node}, HeightInv t →
    height t = 0 → t = nil := by
  intro t hH h0
  cases t with
  | nil => rfl
  | node d l r h =>
    have := height_pos hH (by simp)
    simp only [height_node] at h0 this
    omega

/-! ### The claims -/

/-- C1: for every finite sequence of insert/remove operations applied to
a freshly constructed (empty) tree and every key `k`, `search(k)`
afterwards returns true if and only if `k` is in the reference set
obtained by applying the same sequence of set-insertions and
set-removals to the empty set. -/
theorem C1_membership_model (ops : List Op) (k : Int) :
    search (applyOps ops) k = true ↔ k ∈ applyOpsSet ops := by
  obtain ⟨_, _, Bst, K⟩ := applyOps_inv ops
  rw [search_spec _ k Bst, K]

/-- C2: every tree reachable from the empty tree by insert and remove
operations satisfies the BST property, the AVL balance property (every
balance factor in `{-1,0,1}`), and height-field correctness (every
cached height is `1 + max` of the children's; with `HeightInv` the
cached heights equal the recomputed ones, so `Balanced` states the
balance property for the true heights as well). -/
theorem C2_invariants (ops : List Op) :
    BST (applyOps ops) ∧ Balanced (applyOps ops) ∧
      HeightInv (applyOps ops) := by
  obtain ⟨H, B, Bst, _⟩ := applyOps_inv ops
  exact ⟨Bst, B, H⟩

/-- C3: on every reachable tree, inserting a key that is already present
leaves the tree unchanged (hence same structure, same membership, and
the invariants keep holding). -/
theorem C3_insert_idempotent (ops : List Op) (k : Int)
    (hmem : k ∈ keys (applyOps ops)) :
    insertNode (applyOps ops) k = applyOps ops := by
  obtain ⟨H, B, Bst, _⟩ := applyOps_inv ops
  obtain ⟨_, _, _, _, _, imem, _⟩ := insertNode_spec k (applyOps ops) H B Bst
  exact imem hmem

theorem C3_witness :
    1 ∈ keys (applyOps [Op.ins 1, Op.ins 2]) ∧
      insertNode (applyOps [Op.ins 1, Op.ins 2]) 1 =
        applyOps [Op.ins 1, Op.ins 2] :=
  ⟨by decide, C3_insert_idempotent [Op.ins 1, Op.ins 2] 1 (by decide)⟩

/-- C4: on every reachable tree, removing an absent key is a no-op: the
tree is unchanged (hence search results for all other keys are
unchanged), and the key is absent afterwards. -/
theorem C4_remove_absent_noop (ops : List Op) (k : Int)
    (hmem : k ∉ keys (applyOps ops)) :
    deleteNode (applyOps ops) k = applyOps ops ∧
      search (deleteNode (applyOps ops) k) k = false := by
  obtain ⟨H, B, Bst, _⟩ := applyOps_inv ops
  obtain ⟨_, _, _, _, _, imem⟩ := deleteNode_spec (applyOps ops) k H B Bst
  refine ⟨imem hmem, ?_⟩
  rw [imem hmem, Bool.eq_false_iff]
  intro hc
  exact hmem ((search_spec _ k Bst).mp hc)

theorem C4_witness :
    5 ∉ keys (applyOps [Op.ins 1, Op.ins 2]) ∧
      (deleteNode (applyOps [Op.ins 1, Op.ins 2]) 5 =
          applyOps [Op.ins 1, Op.ins 2] ∧
        search (deleteNode (applyOps [Op.ins 1, Op.ins 2]) 5) 5 = false) :=
  ⟨by decide, C4_remove_absent_noop [Op.ins 1, Op.ins 2] 5 (by decide)⟩

/-- C5: during an insertion into a valid subtree, at a node whose
recomputed balance factor exceeds `1` in absolute value after the
recursive call returns, the inserted key differs from the updated
child's key, and exactly one of the four rebalancing cases fires,
selected by comparing the inserted key with the child's key: `bf > 1`
with `key < left.data` does a single right rotation; `bf > 1` with
`key > left.data` left-rotates the left child then right-rotates;
`bf < -1` with `key > right.data` does a single left rotation; and
`bf < -1` with `key < right.data` right-rotates the right child then
left-rotates. -/
theorem C5_insert_rebalancing (d : Int) (l r : Node) (h k : Int)
    (hH : HeightInv (node d l r h)) (hB : Balanced (node d l r h))
    (hBst : BST (node d l r h)) :
    (k < d →
      getBalance (updateHeight (node d (insertNode l k) r h)) > 1 →
      (k < dataOf (insertNode l k) ∨ dataOf (insertNode l k) < k) ∧
      insertNode (node d l r h) k =
        (if k < dataOf (insertNode l k) then
          rightRotate (updateHeight (node d (insertNode l k) r h))
        else
          rightRotate (setLeft (updateHeight (node d (insertNode l k) r h))
            (leftRotate (insertNode l k))))) ∧
    (d < k →
      getBalance (updateHeight (node d l (insertNode r k) h)) < -1 →
      (k < dataOf (insertNode r k) ∨ dataOf (insertNode r k) < k) ∧
      insertNode (node d l r h) k =
        (if dataOf (insertNode r k) < k then
          leftRotate (updateHeight (node d l (insertNode r k) h))
        else
          leftRotate (setRight (updateHeight (node d l (insertNode r k) h))
            (rightRotate (insertNode r k))))) := by
  obtain ⟨hh, hHl, hHr⟩ := hH
  obtain ⟨hb1, hb2, hBl, hBr⟩ := hB
  obtain ⟨hkl, hkr, hBstl, hBstr⟩ := hBst
  have h0l := height_nonneg hHl
  have h0r := height_nonneg hHr
  constructor
  · intro hkd hbal
    obtain ⟨iH, iB, iBst, ikeys, iht, imem, igrow⟩ :=
      insertNode_spec k l hHl hBl hBstl
    simp only [updateHeight_node, getBalance_node] at hbal
    have hgrow1 : height (insertNode l k) = height l + 1 := by
      rcases iht with hs | hs
      · omega
      · exact hs
    have hlne : l ≠ nil := by
      intro hcontra
      subst hcontra
      simp only [height_nil] at hgrow1 hbal
      omega
    obtain ⟨hkne, hgb⟩ := igrow hlne hgrow1
    have htri : k < dataOf (insertNode l k) ∨ dataOf (insertNode l k) < k := by
      rcases lt_trichotomy k (dataOf (insertNode l k)) with hc | hc | hc
      · exact Or.inl hc
      · exact absurd hc hkne
      · exact Or.inr hc
    refine ⟨htri, ?_⟩
    have hEq : insertNode (node d l r h) k =
        rebalanceInsert (node d (insertNode l k) r h) k := by
      simp only [insertNode]
      rw [if_pos hkd]
    rw [hEq]
    by_cases hklt : k < dataOf (insertNode l k)
    · rw [if_pos hklt]
      simp only [rebalanceInsert, updateHeight_node, getBalance_node,
        leftOf_node, rightOf_node, dataOf_node]
      rw [if_pos ⟨hbal, hklt⟩]
    · have hcgt : dataOf (insertNode l k) < k := by
        rcases htri with hc | hc
        · exact absurd hc hklt
        · exact hc
      rw [if_neg hklt]
      simp only [rebalanceInsert, updateHeight_node, getBalance_node,
        leftOf_node, rightOf_node, dataOf_node, setLeft_node]
      rw [if_neg (by rintro ⟨-, c⟩; exact hklt c),
        if_neg (by rintro ⟨c, -⟩; omega),
        if_pos ⟨hbal, hcgt⟩]
  · intro hkd hbal
    obtain ⟨iH, iB, iBst, ikeys, iht, imem, igrow⟩ :=
      insertNode_spec k r hHr hBr hBstr
    simp only [updateHeight_node, getBalance_node] at hbal
    have hgrow1 : height (insertNode r k) = height r + 1 := by
      rcases iht with hs | hs
      · omega
      · exact hs
    have hrne : r ≠ nil := by
      intro hcontra
      subst hcontra
      simp only [height_nil] at hgrow1 hbal
      omega
    obtain ⟨hkne, hgb⟩ := igrow hrne hgrow1
    have htri : k < dataOf (insertNode r k) ∨ dataOf (insertNode r k) < k := by
      rcases lt_trichotomy k (dataOf (insertNode r k)) with hc | hc | hc
      · exact Or.inl hc
      · exact absurd hc hkne
      · exact Or.inr hc
    refine ⟨htri, ?_⟩
    have hEq : insertNode (node d l r h) k =
        rebalanceInsert (node d l (insertNode r k) h) k := by
      simp only [insertNode]
      rw [if_neg (by omega), if_pos hkd]
    rw [hEq]
    by_cases hkgt : dataOf (insertNode r k) < k
    · rw [if_pos hkgt]
      simp only [rebalanceInsert, updateHeight_node, getBalance_node,
        leftOf_node, rightOf_node, dataOf_node]
      rw [if_neg (by rintro ⟨c, -⟩; omega), if_pos ⟨hbal, hkgt⟩]
    · have hclt : k < dataOf (insertNode r k) := by
        rcases htri with hc | hc
        · exact hc
        · exact absurd hc hkgt
      rw [if_neg hkgt]
      simp only [rebalanceInsert, updateHeight_node, getBalance_node,
        leftOf_node, rightOf_node, dataOf_node, setRight_node]
      rw [if_neg (by rintro ⟨c, -⟩; omega),
        if_neg (by rintro ⟨-, c⟩; exact hkgt c),
        if_neg (by rintro ⟨c, -⟩; omega),
        if_pos ⟨hbal, hclt⟩]

theorem C5_witness :
    insertNode (node 30 (node 20 nil nil 1) nil 2) 10 =
      rightRotate (updateHeight (node 30
        (insertNode (node 20 nil nil 1) 10) nil 2)) := by
  have h := (C5_insert_rebalancing 30 (node 20 nil nil 1) nil 2 10
    (by decide) (by decide) (by decide)).1 (by decide) (by decide)
  rw [h.2, if_pos (by decide)]

/-- C6: at every level of `deleteNode`'s recursion the subtree is
reattached and the height-update-and-rebalance step runs (first two
conjuncts), and that step, whenever the recomputed balance factor
exceeds `1` in absolute value, applies exactly the four-case policy
keyed off the child's balance factor: `bf > 1` with
`balance(left) ≥ 0` right-rotates; `bf > 1` with `balance(left) < 0`
left-rotates the left child then right-rotates; `bf < -1` with
`balance(right) ≤ 0` left-rotates; `bf < -1` with `balance(right) > 0`
right-rotates the right child then left-rotates. -/
theorem C6_delete_rebalancing (d : Int) (l r : Node) (h k : Int) :
    (k < d → deleteNode (node d l r h) k =
      rebalanceDelete (node d (deleteNode l k) r h)) ∧
    (d < k → deleteNode (node d l r h) k =
      rebalanceDelete (node d l (deleteNode r k) h)) ∧
    ∀ (e : Int) (a b : Node) (g : Int),
      (getBalance (updateHeight (node e a b g)) > 1 ∨
        getBalance (updateHeight (node e a b g)) < -1) →
      rebalanceDelete (node e a b g) =
        (if getBalance (updateHeight (node e a b g)) > 1 then
          (if getBalance a ≥ 0 then
            rightRotate (updateHeight (node e a b g))
          else
            rightRotate (setLeft (updateHeight (node e a b g))
              (leftRotate a)))
        else
          (if getBalance b ≤ 0 then
            leftRotate (updateHeight (node e a b g))
          else
            leftRotate (setRight (updateHeight (node e a b g))
              (rightRotate b)))) := by
  refine ⟨?_, ?_, ?_⟩
  · intro hkd
    rw [deleteNode_node, if_pos hkd]
  · intro hkd
    rw [deleteNode_node, if_neg (by omega), if_pos hkd]
  · intro e a b g hbal
    simp only [updateHeight_node, getBalance_node] at hbal ⊢
    simp only [rebalanceDelete, updateHeight_node, getBalance_node,
      leftOf_node, rightOf_node, setLeft_node, setRight_node]
    by_cases h1 : height a - height b > 1
    · rw [if_pos h1]
      by_cases h2 : getBalance a ≥ 0
      · rw [if_pos h2, if_pos ⟨h1, h2⟩]
      · rw [if_neg h2, if_neg (fun c => h2 c.2), if_pos ⟨h1, by omega⟩]
    · have h1' : height a - height b < -1 := by
        rcases hbal with hb | hb
        · exact absurd hb h1
        · exact hb
      rw [if_neg h1]
      by_cases h2 : getBalance b ≤ 0
      · rw [if_pos h2, if_neg (fun c => h1 c.1), if_neg (fun c => h1 c.1),
          if_pos ⟨h1', h2⟩]
      · rw [if_neg h2, if_neg (fun c => h1 c.1), if_neg (fun c => h1 c.1),
          if_neg (fun c => h2 c.2), if_pos ⟨h1', by omega⟩]

theorem C6_witness :
    deleteNode
        (node 20 (node 10 (node 5 nil nil 1) nil 2) (node 30 nil nil 1) 3)
        30 =
      rebalanceDelete (node 20 (node 10 (node 5 nil nil 1) nil 2)
        (deleteNode (node 30 nil nil 1) 30) 3) ∧
    rebalanceDelete (node 20 (node 10 (node 5 nil nil 1) nil 2) nil 3) =
      rightRotate (updateHeight
        (node 20 (node 10 (node 5 nil nil 1) nil 2) nil 3)) := by
  constructor
  · exact (C6_delete_rebalancing 20 (node 10 (node 5 nil nil 1) nil 2)
      (node 30 nil nil 1) 3 30).2.1 (by decide)
  · have hstep := (C6_delete_rebalancing 0 nil nil 0 0).2.2 20
      (node 10 (node 5 nil nil 1) nil 2) nil 3 (Or.inl (by decide))
    rw [hstep, if_pos (by decide), if_pos (by decide)]

/-- C7: a right rotation around a node `y` with non-absent left child
`x` returns `x` as new root, moves `x`'s former right child `T2` to
`y`'s left, makes `y` the right child of `x`, recomputes `y`'s height
before `x`'s (visible in the nested height expressions, yielding
correct height fields whenever the three subtrees have correct ones),
and preserves the in-order traversal (hence the multiset of keys and
the BST order); the left rotation is the mirror image. -/
theorem C7_rotation_shape (dy dx : Int) (t1 t2 t3 : Node) (hx hy : Int) :
    (rightRotate (node dy (node dx t1 t2 hx) t3 hy) =
      node dx t1 (node dy t2 t3 (1 + max (height t2) (height t3)))
        (1 + max (height t1) (1 + max (height t2) (height t3)))) ∧
    inorder (rightRotate (node dy (node dx t1 t2 hx) t3 hy)) =
      inorder (node dy (node dx t1 t2 hx) t3 hy) ∧
    keys (rightRotate (node dy (node dx t1 t2 hx) t3 hy)) =
      keys (node dy (node dx t1 t2 hx) t3 hy) ∧
    (HeightInv t1 → HeightInv t2 → HeightInv t3 →
      HeightInv (rightRotate (node dy (node dx t1 t2 hx) t3 hy))) ∧
    (BST (node dy (node dx t1 t2 hx) t3 hy) →
      BST (rightRotate (node dy (node dx t1 t2 hx) t3 hy))) ∧
    (leftRotate (node dx t1 (node dy t2 t3 hy) hx) =
      node dy (node dx t1 t2 (1 + max (height t1) (height t2))) t3
        (1 + max (1 + max (height t1) (height t2)) (height t3))) ∧
    inorder (leftRotate (node dx t1 (node dy t2 t3 hy) hx)) =
      inorder (node dx t1 (node dy t2 t3 hy) hx) ∧
    keys (leftRotate (node dx t1 (node dy t2 t3 hy) hx)) =
      keys (node dx t1 (node dy t2 t3 hy) hx) ∧
    (HeightInv t1 → HeightInv t2 → HeightInv t3 →
      HeightInv (leftRotate (node dx t1 (node dy t2 t3 hy) hx))) ∧
    (BST (node dx t1 (node dy t2 t3 hy) hx) →
      BST (leftRotate (node dx t1 (node dy t2 t3 hy) hx))) :=
  ⟨rfl, inorder_rightRotate _, keys_rightRotate _,
    fun h1 h2 h3 => HeightInv_rightRotate h1 h2 h3 dy dx hx hy,
    BST_rightRotate, rfl, inorder_leftRotate _, keys_leftRotate _,
    fun h1 h2 h3 => HeightInv_leftRotate h1 h2 h3 dx dy hy hx,
    BST_leftRotate⟩

theorem C7_witness :
    rightRotate (node 30 (node 20 (node 10 nil nil 1) nil 2) nil 3) =
      node 20 (node 10 nil nil 1) (node 30 nil nil 1) 2 ∧
    HeightInv (rightRotate (node 30 (node 20 (node 10 nil nil 1) nil 2)
      nil 3)) ∧
    BST (rightRotate (node 30 (node 20 (node 10 nil nil 1) nil 2) nil 3)) := by
  obtain ⟨h1, h2, h3, h4, h5, _⟩ :=
    C7_rotation_shape 30 20 (node 10 nil nil 1) nil nil 2 3
  refine ⟨?_, h4 (by decide) trivial trivial, h5 (by decide)⟩
  rw [h1]
  decide

/-- C8: `search` computes exactly membership on every tree satisfying
the BST property and reports absence as the boolean `false` (it is a
pure function of the tree in this embedding, mirroring that
`searchNodeUtil` never writes through any pointer). -/
theorem C8_search_pure (t : Node) (k : Int) (hBst : BST t) :
    (search t k = true ↔ k ∈ keys t) ∧
      (k ∉ keys t → search t k = false) := by
  refine ⟨search_spec t k hBst, fun hmem => ?_⟩
  rw [Bool.eq_false_iff]
  intro hc
  exact hmem ((search_spec t k hBst).mp hc)

theorem C8_witness :
    ((search (node 20 (node 10 nil nil 1) nil 2) 10 = true ↔
        10 ∈ keys (node 20 (node 10 nil nil 1) nil 2)) ∧
      (10 ∉ keys (node 20 (node 10 nil nil 1) nil 2) →
        search (node 20 (node 10 nil nil 1) nil 2) 10 = false)) :=
  C8_search_pure (node 20 (node 10 nil nil 1) nil 2) 10 (by decide)

/-- C9: inserting a list of distinct keys into the empty tree and then
removing a permutation of them always yields the empty tree, and
`search` returns false for each of those keys afterwards. -/
theorem C9_round_trip (L M : List Int) (_hnd : L.Nodup) (hperm : M.Perm L) :
    applyOps (L.map Op.ins ++ M.map Op.del) = nil ∧
      ∀ k ∈ L, search (applyOps (L.map Op.ins ++ M.map Op.del)) k = false := by
  have hset : applyOpsSet (L.map Op.ins ++ M.map Op.del) = ∅ := by
    rw [applyOpsSet, List.foldl_append, foldl_ins_set, foldl_del_set,
      List.toFinset_eq_of_perm M L hperm, Finset.empty_union,
      Finset.sdiff_self]
  obtain ⟨_, _, _, K⟩ := applyOps_inv (L.map Op.ins ++ M.map Op.del)
  have hnil : applyOps (L.map Op.ins ++ M.map Op.del) = nil :=
    eq_nil_of_keys_empty (by rw [K, hset])
  refine ⟨hnil, fun k _ => ?_⟩
  rw [hnil]
  rfl

theorem C9_witness :
    applyOps ([1, 2, 3].map Op.ins ++ [2, 3, 1].map Op.del) = nil ∧
      search (applyOps ([1, 2, 3].map Op.ins ++ [2, 3, 1].map Op.del))
        2 = false :=
  ⟨(C9_round_trip [1, 2, 3] [2, 3, 1] (by decide) (by decide)).1,
    (C9_round_trip [1, 2, 3] [2, 3, 1] (by decide) (by decide)).2
      2 (by decide)⟩

/-- C10: in every tree satisfying the AVL balance and height-field
invariants, any node with exactly one child has a leaf (height 1, no
children) as that child; consequently the one-child deletion branch,
which replaces the node by a copy of that child, always splices in a
leaf and cannot discard any grandchild subtree (there are none). -/
theorem C10_one_child_is_leaf (t : Node) (hH : HeightInv t)
    (hB : Balanced t) (d : Int) (l r : Node) (h : Int)
    (hsub : Subtree (node d l r h) t) :
    (l = nil → r ≠ nil →
      leftOf r = nil ∧ rightOf r = nil ∧ height r = 1) ∧
    (r = nil → l ≠ nil →
      leftOf l = nil ∧ rightOf l = nil ∧ height l = 1) := by
  obtain ⟨hh, hHl, hHr⟩ := hsub.heightInv hH
  obtain ⟨hb1, hb2, hBl, hBr⟩ := hsub.balanced hB
  constructor
  · intro hl hr
    subst hl
    have h1 : height r = 1 := by
      have := height_pos hHr hr
      simp only [height_nil] at hb1 hb2
      omega
    cases r with
    | nil => exact absurd rfl hr
    | node dr rl rr hr2 =>
      obtain ⟨hh2, hHrl, hHrr⟩ := hHr
      have h0rl := height_nonneg hHrl
      have h0rr := height_nonneg hHrr
      simp only [height_node] at h1
      refine ⟨?_, ?_, by simp only [height_node, h1]⟩
      · simp only [leftOf_node]
        exact eq_nil_of_height_eq_zero hHrl (by omega)
      · simp only [rightOf_node]
        exact eq_nil_of_height_eq_zero hHrr (by omega)
  · intro hr hl
    subst hr
    have h1 : height l = 1 := by
      have := height_pos hHl hl
      simp only [height_nil] at hb1 hb2
      omega
    cases l with
    | nil => exact absurd rfl hl
    | node dl ll lr hl2 =>
      obtain ⟨hh2, hHll, hHlr⟩ := hHl
      have h0ll := height_nonneg hHll
      have h0lr := height_nonneg hHlr
      simp only [height_node] at h1
      refine ⟨?_, ?_, by simp only [height_node, h1]⟩
      · simp only [leftOf_node]
        exact eq_nil_of_height_eq_zero hHll (by omega)
      · simp only [rightOf_node]
        exact eq_nil_of_height_eq_zero hHlr (by omega)

theorem C10_witness :
    leftOf (node 3 nil nil 1) = nil ∧ rightOf (node 3 nil nil 1) = nil ∧
      height (node 3 nil nil 1) = 1 :=
  (C10_one_child_is_leaf (node 2 nil (node 3 nil nil 1) 2) (by decide)
    (by decide) 2 nil (node 3 nil nil 1) 2 (Subtree.refl _)).1 rfl
    (by decide)

end AVL
